import Mathlib

/-!
Verification of the `mad_math` numeric utilities.

A shallow embedding of the functions of `mad_math.py` (primality check,
trial-division factorization in its three presentations, Euler totient,
approximate equality) together with proofs of the documented properties.

Python's unbounded integers are modelled by `Int`/`Nat`.  The `while` loops
of the source are modelled by structurally recursive functions carrying a
fuel argument; the top-level entry points supply a fuel that is proved
sufficient (the loop measure strictly decreases at each iteration), so the
fuel never runs out on the calls the source actually makes.  `math.sqrt`
applied to a nonnegative integer and compared against an integer candidate
`a` via `a <= sqrt(x)` is modelled by `a ≤ Nat.sqrt x` (for integers the two
comparisons agree).  `math.sqrt` of a negative argument raises `ValueError`;
functions that can hit that path take an `Int` and return an `Option`,
with `none` modelling the raised exception.
-/

set_option maxRecDepth 8000

namespace MadMath

/-- Downward search for the integer square root: `isqrtGo n k` is the largest
`r < k` with `r * r ≤ n` (and 0 when none exists). -/
def isqrtGo (n : Nat) : Nat → Nat
  | 0 => 0
  | k + 1 => if k * k ≤ n then k else isqrtGo n k

/-- The source's `int(sqrt(n))` for a nonnegative integer `n`: the integer square root
`⌊√n⌋`.  Defined by structural recursion so that concrete runs reduce inside
the kernel; it coincides with `Nat.sqrt` (`isqrt_eq_sqrt`).  For an integer
candidate `a`, the source's comparison `a <= sqrt(n)` against the real
square root agrees with `a ≤ isqrt n`, since `a ≤ √n ↔ a² ≤ n ↔ a ≤ ⌊√n⌋`. -/
def isqrt (n : Nat) : Nat := isqrtGo n (n + 1)

/-- Loop of `is_prime`: Python's
`while a <= limit: if not (x % a): return False; a += 2`,
with `limit = sqrt(x)` fixed before the loop.  `fuel` bounds the number of
iterations; it is provably sufficient whenever `Nat.sqrt x + 1 ≤ fuel + a`. -/
def isPrimeAux (x : Nat) : Nat → Nat → Bool
  | 0, _ => true
  | fuel + 1, a =>
    if a ≤ isqrt x then
      if x % a = 0 then false else isPrimeAux x fuel (a + 2)
    else true

/-- Embedding of `is_prime(x)`: returns `False` when `x < 2` or `x` is even and not 2,
`True` for `x in (2, 3, 5, 7)`, otherwise trial division by odd candidates
from 3 up to `sqrt(x)` inclusive. -/
def is_prime (x : Int) : Bool :=
  if x < 2 ∨ (x ≠ 2 ∧ x % 2 = 0) then false
  else if x = 2 ∨ x = 3 ∨ x = 5 ∨ x = 7 then true
  else isPrimeAux x.toNat x.toNat 3

/-- Loop of `prime_factors`:
`while actual <= limit:` — if `actual` divides `n`, divide it out, recompute
`limit = sqrt(n)` and append `actual`; else advance `actual` by
`1 + actual % 2`.  After the loop, a remainder `> 1` is appended.
The loop measure `n + (Nat.sqrt n + 2 - actual)` strictly decreases at each
iteration, so any fuel at least that measure is sufficient. -/
def primeFactorsAux : Nat → Nat → Nat → List Nat
  | 0, n, _ => if n > 1 then [n] else []
  | fuel + 1, n, actual =>
    if actual ≤ isqrt n then
      if n % actual = 0 then actual :: primeFactorsAux fuel (n / actual) actual
      else primeFactorsAux fuel n (actual + 1 + actual % 2)
    else if n > 1 then [n] else []

/-- Embedding of `prime_factors(n)`: list of prime factors of `n`, via trial division with
shrinking limit.  For `n < 0` the first statement `limit = int(sqrt(n))`
raises `ValueError` (modelled by `none`). -/
def prime_factors (n : Int) : Option (List Nat) :=
  if n < 0 then none else some (primeFactorsAux (2 * n.toNat + 2) n.toNat 2)

/-- The statement `factors[k] += 1` on a `defaultdict(int)`: Python dicts preserve insertion
order, modelled as an association list; a missing key is appended with
count 1, an existing key has its count incremented in place. -/
def bump : List (Nat × Nat) → Nat → List (Nat × Nat)
  | [], k => [(k, 1)]
  | (p, e) :: rest, k =>
    if p = k then (p, e + 1) :: rest else (p, e) :: bump rest k

/-- Loop of `prime_factors_dict`: same trial division as `primeFactorsAux`,
accumulating `factors[actual] += 1` instead of appending to a list. -/
def primeFactorsDictAux : Nat → Nat → Nat → List (Nat × Nat) → List (Nat × Nat)
  | 0, n, _, factors => if n > 1 then bump factors n else factors
  | fuel + 1, n, actual, factors =>
    if actual ≤ isqrt n then
      if n % actual = 0 then
        primeFactorsDictAux fuel (n / actual) actual (bump factors actual)
      else primeFactorsDictAux fuel n (actual + 1 + actual % 2) factors
    else if n > 1 then bump factors n else factors

/-- Embedding of `prime_factors_dict(n)`: prime factors of `n` as a `base : exp` mapping
(insertion-ordered association list).  `none` models the `ValueError` raised
by `int(sqrt(n))` for `n < 0`. -/
def prime_factors_dict (n : Int) : Option (List (Nat × Nat)) :=
  if n < 0 then none else some (primeFactorsDictAux (2 * n.toNat + 2) n.toNat 2 [])

/-- Loop of `prime_factors_i`: same trial division, with `yield actual`
(resp. `yield num` after the loop); the finite sequence of yielded values is
modelled as a list. -/
def primeFactorsIAux : Nat → Nat → Nat → List Nat
  | 0, num, _ => if num > 1 then [num] else []
  | fuel + 1, num, actual =>
    if actual ≤ isqrt num then
      if num % actual = 0 then actual :: primeFactorsIAux fuel (num / actual) actual
      else primeFactorsIAux fuel num (actual + 1 + (actual % 2))
    else if num > 1 then [num] else []

/-- Embedding of `prime_factors_i(num)`: the generator yielding the prime factors of `num`,
modelled as the list of all values it yields when exhausted.  `none` models
the `ValueError` raised by `int(sqrt(num))` for `num < 0`. -/
def prime_factors_i (num : Int) : Option (List Nat) :=
  if num < 0 then none else some (primeFactorsIAux (2 * num.toNat + 2) num.toNat 2)

/-- Embedding of `totient(n) = sum(1 for x in range(1, n+1) if gcd(x, n) == 1)`.
For `n ≤ 0` the range is empty and the sum is 0. -/
def totient (n : Int) : Nat :=
  (List.range' 1 n.toNat).countP fun x => Nat.gcd x n.toNat == 1

/-- Embedding of `eqd(a, b, delta, precision)`: raises (modelled by `none`) when
`precision < 0`; otherwise replaces `a`, `b` by their absolute values, sets
`exp = 10 ** int(precision)` (truncation toward 0 equals `⌊precision⌋` for
nonnegative `precision`) and returns `abs((a-b)*exp) <= abs(delta*exp)`.
Python floats are modelled by exact rationals. -/
def eqd (a b delta : ℚ) (precision : ℚ) : Option Bool :=
  if precision < 0 then none
  else
    some (decide (|(|a| - |b|) * 10 ^ (⌊precision⌋).toNat| ≤ |delta * 10 ^ (⌊precision⌋).toNat|))

/-- Product of `prime ^ exponent` over a multiplicity mapping. -/
def dictProd (d : List (Nat × Nat)) : Nat :=
  (d.map fun pe => pe.1 ^ pe.2).prod

/-- The exponent a multiplicity mapping assigns to `p` (0 when absent; total
over duplicate keys, which the built mappings never have). -/
def dictCount (d : List (Nat × Nat)) (p : Nat) : Nat :=
  ((d.filter fun pe => pe.1 = p).map Prod.snd).sum

/-- The keys of a multiplicity mapping. -/
def dictKeys (d : List (Nat × Nat)) : List Nat :=
  d.map Prod.fst

/-! ### The integer square root -/

theorem isqrtGo_spec (n : Nat) :
    ∀ k, n < k * k →
      isqrtGo n k * isqrtGo n k ≤ n ∧ n < (isqrtGo n k + 1) * (isqrtGo n k + 1) := by
  intro k
  induction k with
  | zero => intro h; omega
  | succ k ih =>
    intro h
    rw [isqrtGo]
    by_cases hk : k * k ≤ n
    · simpa [if_pos hk] using ⟨hk, h⟩
    · simpa [if_neg hk] using ih (by omega)

theorem isqrt_eq_sqrt (n : Nat) : isqrt n = Nat.sqrt n := by
  have h := isqrtGo_spec n (n + 1) (by nlinarith)
  exact (Nat.eq_sqrt (n := n) (a := isqrt n)).mpr ⟨h.1, h.2⟩

/-! ### The factorization loop: products, primality, order -/

/-- Invariants of the trial-division loop.  Provided the fuel dominates the
loop measure, the candidate is 2 or odd, and no integer in `[2, actual)`
divides `n`, the emitted factors multiply back to `n`, are all prime and at
least `actual`, and come out in non-decreasing order. -/
theorem primeFactorsAux_spec (fuel : Nat) :
    ∀ n actual : Nat,
      n + (Nat.sqrt n + 2 - actual) ≤ fuel →
      2 ≤ actual →
      (actual = 2 ∨ actual % 2 = 1) →
      (∀ d, 2 ≤ d → d < actual → ¬ d ∣ n) →
      1 ≤ n →
      (primeFactorsAux fuel n actual).prod = n
        ∧ (∀ p ∈ primeFactorsAux fuel n actual, p.Prime ∧ actual ≤ p)
        ∧ List.Sorted (· ≤ ·) (primeFactorsAux fuel n actual) := by
  induction fuel with
  | zero => intro n actual hfuel _ _ _ hn; omega
  | succ fuel ih =>
    intro n actual hfuel h2 hodd hnd hn
    by_cases hle : actual ≤ Nat.sqrt n
    · have hle' : actual ≤ isqrt n := by rw [isqrt_eq_sqrt]; exact hle
      by_cases hdvd : n % actual = 0
      · -- the candidate divides the remainder: divide it out and emit it
        have hres : primeFactorsAux (fuel + 1) n actual
            = actual :: primeFactorsAux fuel (n / actual) actual := by
          rw [primeFactorsAux, if_pos hle', if_pos hdvd]
        have hdv : actual ∣ n := Nat.dvd_of_mod_eq_zero hdvd
        have hsq : actual * actual ≤ n := Nat.le_sqrt.mp hle
        have hpos : 0 < actual := by omega
        have han : actual ≤ n := le_trans (Nat.le_mul_of_pos_left actual hpos) hsq
        have hq1 : 1 ≤ n / actual := (Nat.one_le_div_iff hpos).mpr han
        have hqlt : n / actual < n := Nat.div_lt_self (by omega) (by omega)
        have hfuel' : n / actual + (Nat.sqrt (n / actual) + 2 - actual) ≤ fuel := by
          have := Nat.sqrt_le_sqrt (Nat.le_of_lt hqlt)
          omega
        have hnd' : ∀ d, 2 ≤ d → d < actual → ¬ d ∣ n / actual := by
          intro d hd2 hdlt hddvd
          exact hnd d hd2 hdlt (hddvd.trans (Nat.div_dvd_of_dvd hdv))
        obtain ⟨ihprod, ihmem, ihsort⟩ := ih (n / actual) actual hfuel' h2 hodd hnd' hq1
        have hprime : actual.Prime := by
          rw [Nat.prime_def_lt]
          refine ⟨h2, fun m hmlt hmd => ?_⟩
          by_contra hm1
          have hm0 : m ≠ 0 := by
            rintro rfl
            exact absurd (Nat.eq_zero_of_zero_dvd hmd) (by omega)
          exact hnd m (by omega) hmlt (hmd.trans hdv)
        refine ⟨?_, ?_, ?_⟩
        · rw [hres, List.prod_cons, ihprod]
          exact Nat.mul_div_cancel' hdv
        · rw [hres]
          intro p hp
          rcases List.mem_cons.mp hp with rfl | hp'
          · exact ⟨hprime, le_refl _⟩
          · exact (ihmem p hp')
        · rw [hres, List.sorted_cons]
          exact ⟨fun b hb => (ihmem b hb).2, ihsort⟩
      · -- the candidate does not divide: advance it, skipping even values
        have hres : primeFactorsAux (fuel + 1) n actual
            = primeFactorsAux fuel n (actual + 1 + actual % 2) := by
          rw [primeFactorsAux, if_pos hle', if_neg hdvd]
        have ha'2 : 2 ≤ actual + 1 + actual % 2 := by omega
        have ha'odd : actual + 1 + actual % 2 = 2 ∨ (actual + 1 + actual % 2) % 2 = 1 := by
          rcases hodd with h | h <;> [subst h; skip] <;> right <;> omega
        have hfuel' : n + (Nat.sqrt n + 2 - (actual + 1 + actual % 2)) ≤ fuel := by omega
        have hnd' : ∀ d, 2 ≤ d → d < actual + 1 + actual % 2 → ¬ d ∣ n := by
          intro d hd2 hdlt hdd
          have hcases : d < actual ∨ d = actual ∨ (d = actual + 1 ∧ actual % 2 = 1) := by
            omega
          rcases hcases with h | h | ⟨h, hpar⟩
          · exact hnd d hd2 h hdd
          · refine hdvd ?_
            obtain ⟨c, rfl⟩ := hdd
            rw [← h]
            exact Nat.mul_mod_right d c
          · subst h
            have h2d : 2 ∣ actual + 1 := Nat.dvd_of_mod_eq_zero (by omega)
            exact hnd 2 (le_refl 2) (by omega) (h2d.trans hdd)
        obtain ⟨ihprod, ihmem, ihsort⟩ := ih n (actual + 1 + actual % 2) hfuel' ha'2 ha'odd hnd' hn
        refine ⟨by rw [hres]; exact ihprod, ?_, by rw [hres]; exact ihsort⟩
        rw [hres]
        intro p hp
        exact ⟨(ihmem p hp).1, le_trans (by omega) (ihmem p hp).2⟩
    · -- the loop is over: a remainder above 1 is itself a prime factor
      have hle' : ¬ actual ≤ isqrt n := by rw [isqrt_eq_sqrt]; exact hle
      have hres : primeFactorsAux (fuel + 1) n actual = if n > 1 then [n] else [] := by
        rw [primeFactorsAux, if_neg hle']
      by_cases hn1 : 1 < n
      · rw [hres, if_pos hn1]
        have hnp : n.Prime := by
          rw [Nat.prime_def_le_sqrt]
          exact ⟨hn1, fun m hm2 hmsq => hnd m hm2 (by omega)⟩
        have hactn : actual ≤ n := by
          by_contra hlt
          exact hnd n hn1 (by omega) dvd_rfl
        refine ⟨by simp, ?_, List.sorted_singleton n⟩
        intro p hp
        rw [List.mem_singleton] at hp
        subst hp
        exact ⟨hnp, hactn⟩
      · have hn1' : n = 1 := by omega
        subst hn1'
        rw [hres, if_neg (by omega)]
        exact ⟨by simp, by simp, List.sorted_nil⟩

/-! ### Correctness of the primality check -/

/-- The trial loop of `is_prime` returns `true` exactly when no candidate in
the arithmetic progression `a, a + 2, …` bounded by `√x` divides `x`
(provided the fuel dominates the remaining iterations). -/
theorem isPrimeAux_eq_true_iff (x : Nat) :
    ∀ fuel a, Nat.sqrt x + 1 ≤ fuel + a →
      (isPrimeAux x fuel a = true ↔
        ∀ b, a ≤ b → b ≤ Nat.sqrt x → (b - a) % 2 = 0 → ¬ b ∣ x) := by
  intro fuel
  induction fuel with
  | zero =>
    intro a hfuel
    rw [isPrimeAux]
    constructor
    · intro _ b hab hble hpar hdvd
      omega
    · intro _
      rfl
  | succ fuel ih =>
    intro a hfuel
    rw [isPrimeAux]
    by_cases hle : a ≤ Nat.sqrt x
    · have hle' : a ≤ isqrt x := by rw [isqrt_eq_sqrt]; exact hle
      rw [if_pos hle']
      by_cases hdvd : x % a = 0
      · rw [if_pos hdvd]
        simp only [Bool.false_eq_true, false_iff]
        intro hall
        exact hall a le_rfl hle (by omega) (Nat.dvd_of_mod_eq_zero hdvd)
      · rw [if_neg hdvd]
        rw [ih (a + 2) (by omega)]
        constructor
        · intro h b hab hble hpar
          rcases (by omega : b = a ∨ (a + 2 ≤ b ∧ (b - (a + 2)) % 2 = 0)) with rfl | ⟨h1, h2⟩
          · intro hd
            obtain ⟨c, hc⟩ := hd
            exact hdvd (by rw [hc]; exact Nat.mul_mod_right b c)
          · exact h b h1 hble h2
        · intro h b hab hble hpar
          exact h b (by omega) hble (by omega)
    · have hle' : ¬ a ≤ isqrt x := by rw [isqrt_eq_sqrt]; exact hle
      rw [if_neg hle']
      constructor
      · intro _ b hab hble hpar hdvd
        omega
      · intro _
        rfl

/-- `is_prime` decides primality: it returns `true` exactly on the integers
`x ≥ 2` whose natural value is prime. -/
theorem is_prime_eq_true_iff (x : Int) :
    is_prime x = true ↔ 2 ≤ x ∧ x.toNat.Prime := by
  by_cases h1 : x < 2 ∨ (x ≠ 2 ∧ x % 2 = 0)
  · rw [is_prime, if_pos h1]
    simp only [Bool.false_eq_true, false_iff]
    rintro ⟨hx2, hp⟩
    rcases h1 with h | ⟨hne, heven⟩
    · omega
    · have h2 : (2 : Int) ∣ x := Int.dvd_of_emod_eq_zero heven
      have hxn : ((x.toNat : Int)) = x := Int.toNat_of_nonneg (by omega)
      have h2n : 2 ∣ x.toNat := by
        rw [← hxn] at h2
        exact_mod_cast h2
      rcases Nat.Prime.eq_one_or_self_of_dvd hp 2 h2n with h | h
      · omega
      · omega
  · by_cases h2 : x = 2 ∨ x = 3 ∨ x = 5 ∨ x = 7
    · rw [is_prime, if_neg h1, if_pos h2]
      simp only [true_iff]
      rcases h2 with rfl | rfl | rfl | rfl <;> exact ⟨by norm_num, by decide⟩
    · rw [is_prime, if_neg h1, if_neg h2]
      push_neg at h1 h2
      have hx2 : 2 ≤ x := by omega
      have hxodd : x % 2 = 1 := by
        rcases h1.2 h2.1 with h
        omega
      have hx9 : 9 ≤ x := by omega
      have hm : ((x.toNat : Int)) = x := Int.toNat_of_nonneg (by omega)
      have hm9 : 9 ≤ x.toNat := by omega
      have hmodd : x.toNat % 2 = 1 := by omega
      rw [isPrimeAux_eq_true_iff x.toNat x.toNat 3
        (by have := Nat.sqrt_le_self x.toNat; omega)]
      constructor
      · intro h
        refine ⟨hx2, ?_⟩
        rw [Nat.prime_def_le_sqrt]
        refine ⟨by omega, fun c hc2 hcsq hcd => ?_⟩
        by_cases hco : c % 2 = 0
        · have h2m : 2 ∣ x.toNat := (Nat.dvd_of_mod_eq_zero hco).trans hcd
          omega
        · exact h c (by omega) hcsq (by omega) hcd
      · rintro ⟨_, hp⟩ b hb3 hbsq hbpar hbd
        rcases Nat.Prime.eq_one_or_self_of_dvd hp b hbd with h | h
        · omega
        · have := Nat.sqrt_lt_self (show 1 < x.toNat by omega)
          omega

/-! ### The three presentations agree -/

/-- The generator loop yields exactly the list the list-form loop builds. -/
theorem primeFactorsIAux_eq (fuel : Nat) :
    ∀ n actual, primeFactorsIAux fuel n actual = primeFactorsAux fuel n actual := by
  induction fuel with
  | zero => intro n actual; rfl
  | succ fuel ih =>
    intro n actual
    rw [primeFactorsIAux, primeFactorsAux]
    by_cases hle : actual ≤ isqrt n
    · rw [if_pos hle, if_pos hle]
      by_cases hdvd : n % actual = 0
      · rw [if_pos hdvd, if_pos hdvd, ih]
      · rw [if_neg hdvd, if_neg hdvd, ih]
    · rw [if_neg hle, if_neg hle]

theorem prime_factors_i_eq (n : Int) : prime_factors_i n = prime_factors n := by
  rw [prime_factors_i, prime_factors]
  by_cases h : n < 0
  · rw [if_pos h, if_pos h]
  · rw [if_neg h, if_neg h, primeFactorsIAux_eq]

/-- The dict-form loop accumulates over the very factors the list-form loop
emits. -/
theorem primeFactorsDictAux_eq_foldl (fuel : Nat) :
    ∀ n actual factors,
      primeFactorsDictAux fuel n actual factors
        = (primeFactorsAux fuel n actual).foldl bump factors := by
  induction fuel with
  | zero =>
    intro n actual factors
    rw [primeFactorsDictAux, primeFactorsAux]
    by_cases h : n > 1
    · rw [if_pos h, if_pos h]
      rfl
    · rw [if_neg h, if_neg h]
      rfl
  | succ fuel ih =>
    intro n actual factors
    rw [primeFactorsDictAux, primeFactorsAux]
    by_cases hle : actual ≤ isqrt n
    · rw [if_pos hle, if_pos hle]
      by_cases hdvd : n % actual = 0
      · rw [if_pos hdvd, if_pos hdvd, ih, List.foldl_cons]
      · rw [if_neg hdvd, if_neg hdvd, ih]
    · rw [if_neg hle, if_neg hle]
      by_cases h : n > 1
      · rw [if_pos h, if_pos h]
        rfl
      · rw [if_neg h, if_neg h]
        rfl

/-! ### Accounting lemmas for the multiplicity mapping -/

theorem dictCount_cons (q e : Nat) (tl : List (Nat × Nat)) (p : Nat) :
    dictCount ((q, e) :: tl) p = (if q = p then e else 0) + dictCount tl p := by
  by_cases h : q = p <;> simp [dictCount, List.filter_cons, h]

theorem dictProd_cons (q e : Nat) (tl : List (Nat × Nat)) :
    dictProd ((q, e) :: tl) = q ^ e * dictProd tl := by
  simp [dictProd]

theorem dictCount_bump (d : List (Nat × Nat)) (k p : Nat) :
    dictCount (bump d k) p = dictCount d p + (if p = k then 1 else 0) := by
  induction d with
  | nil =>
    rw [bump, dictCount_cons]
    by_cases h : p = k
    · subst h
      simp [dictCount]
    · simp [dictCount, h, Ne.symm h]
  | cons hd tl ih =>
    obtain ⟨q, e⟩ := hd
    rw [bump]
    by_cases hq : q = k
    · rw [if_pos hq, dictCount_cons, dictCount_cons]
      subst hq
      by_cases hp : q = p
      · rw [if_pos hp, if_pos hp, if_pos (by omega : p = q)]
        omega
      · rw [if_neg hp, if_neg hp, if_neg (fun h => hp h.symm)]
        omega
    · rw [if_neg hq, dictCount_cons, dictCount_cons, ih]
      omega

theorem dictProd_bump (d : List (Nat × Nat)) (k : Nat) :
    dictProd (bump d k) = k * dictProd d := by
  induction d with
  | nil => simp [bump, dictProd]
  | cons hd tl ih =>
    obtain ⟨q, e⟩ := hd
    rw [bump]
    by_cases hq : q = k
    · subst hq
      rw [if_pos rfl, dictProd_cons, dictProd_cons, pow_succ]
      ring
    · rw [if_neg hq, dictProd_cons, dictProd_cons, ih]
      ring

theorem dictKeys_bump (d : List (Nat × Nat)) (k p : Nat)
    (h : p ∈ dictKeys (bump d k)) : p ∈ dictKeys d ∨ p = k := by
  induction d with
  | nil =>
    rw [bump] at h
    simp [dictKeys] at h
    exact Or.inr h
  | cons hd tl ih =>
    obtain ⟨q, e⟩ := hd
    rw [bump] at h
    by_cases hq : q = k
    · rw [if_pos hq] at h
      simp [dictKeys] at h ⊢
      tauto
    · rw [if_neg hq] at h
      simp [dictKeys] at h ⊢
      rcases h with h | h
      · tauto
      · rcases ih (by simpa [dictKeys] using h) with h' | h'
        · simp [dictKeys] at h'
          tauto
        · tauto

theorem dictCount_foldl (l : List Nat) :
    ∀ (d : List (Nat × Nat)) (p : Nat),
      dictCount (l.foldl bump d) p = dictCount d p + l.count p := by
  induction l with
  | nil => simp
  | cons a l ih =>
    intro d p
    rw [List.foldl_cons, ih, dictCount_bump, List.count_cons]
    by_cases h : p = a
    · simp [h]
      omega
    · simp [h, Ne.symm h]

theorem dictProd_foldl (l : List Nat) :
    ∀ d : List (Nat × Nat), dictProd (l.foldl bump d) = dictProd d * l.prod := by
  induction l with
  | nil => simp
  | cons a l ih =>
    intro d
    rw [List.foldl_cons, ih, dictProd_bump, List.prod_cons]
    ring

theorem dictKeys_foldl (l : List Nat) :
    ∀ (d : List (Nat × Nat)) (p : Nat),
      p ∈ dictKeys (l.foldl bump d) → p ∈ dictKeys d ∨ p ∈ l := by
  induction l with
  | nil =>
    intro d p h
    exact Or.inl h
  | cons a l ih =>
    intro d p h
    rcases ih (bump d a) p h with h' | h'
    · rcases dictKeys_bump d a p h' with h'' | h''
      · exact Or.inl h''
      · exact Or.inr (by simp [h''])
    · exact Or.inr (by simp [h'])

/-! ### The top-level factorization calls -/

/-- The fuel `2 * m + 2` supplied by the top-level functions dominates the
loop measure, so the invariants of `primeFactorsAux_spec` hold for the list
the source actually computes. -/
theorem primeFactorsCore_spec (m : Nat) (h : 1 ≤ m) :
    (primeFactorsAux (2 * m + 2) m 2).prod = m
      ∧ (∀ p ∈ primeFactorsAux (2 * m + 2) m 2, p.Prime)
      ∧ List.Sorted (· ≤ ·) (primeFactorsAux (2 * m + 2) m 2) := by
  obtain ⟨h1, h2, h3⟩ :=
    primeFactorsAux_spec (2 * m + 2) m 2
      (by have := Nat.sqrt_le_self m; omega) le_rfl (Or.inl rfl)
      (fun d hd2 hdlt => absurd hdlt (by omega)) h
  exact ⟨h1, fun p hp => (h2 p hp).1, h3⟩

/-! ### Totient -/

/-- Counting coprime residues over `range(1, m+1)` agrees with the cardinality
of the filtered interval `[1, m]` (for a fixed modulus `c`). -/
theorem countP_range'_eq_card (c : Nat) :
    ∀ m, (List.range' 1 m).countP (fun x => Nat.gcd x c == 1)
      = ((Finset.Icc 1 m).filter fun x => Nat.gcd x c = 1).card := by
  intro m
  induction m with
  | zero => rfl
  | succ k ih =>
    have hIcc : Finset.Icc 1 (k + 1) = insert (k + 1) (Finset.Icc 1 k) := by
      ext y
      simp only [Finset.mem_Icc, Finset.mem_insert]
      omega
    rw [List.range'_1_concat, List.countP_append, ih, hIcc, Finset.filter_insert]
    by_cases h : Nat.gcd (k + 1) c = 1
    · rw [if_pos h, Finset.card_insert_of_not_mem (by simp)]
      have : (1 + k) = (k + 1) := by omega
      simp [List.countP_cons, this, h]
    · rw [if_neg h]
      have : (1 + k) = (k + 1) := by omega
      simp [List.countP_cons, this, h]

/-- The interval `[1, n]` of integers is the embedded image of the interval
`[1, n.toNat]` of naturals. -/
theorem Icc_int_eq_map (n : Int) :
    Finset.Icc (1 : Int) n
      = (Finset.Icc 1 n.toNat).map ⟨Nat.cast, Nat.cast_injective⟩ := by
  ext x
  simp only [Finset.mem_Icc, Finset.mem_map, Function.Embedding.coeFn_mk]
  constructor
  · rintro ⟨h1, h2⟩
    exact ⟨x.toNat, by omega, by omega⟩
  · rintro ⟨m, ⟨hm1, hm2⟩, rfl⟩
    omega

/-- Shared core of the `p + 7` observations: every factor the engine emits is
prime, hence `p + 7` is either 9 or an even number above 2, and `is_prime`
rejects both. -/
theorem factor_plus_seven_aux (n : Int) (hn : 2 ≤ n) (l : List Nat)
    (hl : prime_factors n = some l) (p : Nat) (hp : p ∈ l) :
    is_prime ((p : Int) + 7) = false := by
  have hn0 : ¬ n < 0 := by omega
  rw [prime_factors, if_neg hn0] at hl
  obtain rfl := Option.some.inj hl
  have hprime := (primeFactorsCore_spec n.toNat (by omega)).2.1 p hp
  cases hb : is_prime ((p : Int) + 7) with
  | false => rfl
  | true =>
    exfalso
    obtain ⟨hge, hpp⟩ := (is_prime_eq_true_iff _).mp hb
    have htn : ((p : Int) + 7).toNat = p + 7 := by omega
    rw [htn] at hpp
    rcases hprime.eq_two_or_odd with h2 | hodd
    · subst h2
      exact absurd hpp (by norm_num)
    · have h2d : 2 ∣ p + 7 := by omega
      rcases hpp.eq_one_or_self_of_dvd 2 h2d with h | h
      · omega
      · have := hprime.two_le
        omega

/-! ## The documented properties -/

/-- C1: for every integer `n > 1`, the product of the list returned by
`prime_factors n`, the product of `prime ^ exponent` over the mapping
returned by `prime_factors_dict n`, and the product of the values yielded by
`prime_factors_i n` all equal `n` exactly. -/
theorem prime_factors_products (n : Int) (h : 1 < n) :
    ∃ l d, prime_factors n = some l ∧ prime_factors_dict n = some d ∧
      prime_factors_i n = some l ∧
      (l.prod : Int) = n ∧ (dictProd d : Int) = n := by
  have hn0 : ¬ n < 0 := by omega
  obtain ⟨hprod, hprime, hsort⟩ := primeFactorsCore_spec n.toNat (by omega)
  refine ⟨primeFactorsAux (2 * n.toNat + 2) n.toNat 2,
    primeFactorsDictAux (2 * n.toNat + 2) n.toNat 2 [], ?_, ?_, ?_, ?_, ?_⟩
  · rw [prime_factors, if_neg hn0]
  · rw [prime_factors_dict, if_neg hn0]
  · rw [prime_factors_i, if_neg hn0, primeFactorsIAux_eq]
  · rw [hprod]
    omega
  · rw [primeFactorsDictAux_eq_foldl, dictProd_foldl]
    have hnil : dictProd ([] : List (Nat × Nat)) = 1 := rfl
    rw [hnil, one_mul, hprod]
    omega

theorem prime_factors_products_witness :
    ∃ l d, prime_factors 12 = some l ∧ prime_factors_dict 12 = some d ∧
      prime_factors_i 12 = some l ∧
      (l.prod : Int) = 12 ∧ (dictProd d : Int) = 12 :=
  prime_factors_products 12 (by norm_num)

/-- C2: `is_prime` returns `false` for all `x < 2`, `true` on 2, 3, 5, 7,
`false` for every even `x > 2`; for odd `x > 2` it returns `false` exactly
when some odd divisor `a ∈ {3, 5, 7, …}` with `a ≤ ⌊√x⌋` divides `x`; in
total `is_prime x = true` iff `x` is a prime; and `is_prime 49 = false`,
`is_prime 2 = true`. -/
theorem is_prime_correct :
    (∀ x : Int, x < 2 → is_prime x = false)
    ∧ (is_prime 2 = true ∧ is_prime 3 = true ∧ is_prime 5 = true ∧ is_prime 7 = true)
    ∧ (∀ x : Int, 2 < x → x % 2 = 0 → is_prime x = false)
    ∧ (∀ x : Int, 2 < x → x % 2 = 1 →
        (is_prime x = false ↔
          ∃ a : Nat, 3 ≤ a ∧ a % 2 = 1 ∧ a ≤ Nat.sqrt x.toNat ∧ (a : Int) ∣ x))
    ∧ (∀ x : Int, is_prime x = true ↔ 2 ≤ x ∧ x.toNat.Prime)
    ∧ is_prime 49 = false ∧ is_prime 2 = true := by
  refine ⟨?_, ⟨by decide, by decide, by decide, by decide⟩, ?_, ?_,
    is_prime_eq_true_iff, by decide, by decide⟩
  · intro x hx
    rw [is_prime, if_pos (Or.inl hx)]
  · intro x hx hev
    rw [is_prime, if_pos (Or.inr ⟨by omega, hev⟩)]
  · intro x hx hodd
    constructor
    · intro hf
      have hnp : ¬ x.toNat.Prime := by
        intro hp
        have := (is_prime_eq_true_iff x).mpr ⟨by omega, hp⟩
        rw [hf] at this
        exact Bool.false_ne_true this
      rw [Nat.prime_def_le_sqrt] at hnp
      push_neg at hnp
      obtain ⟨c, hc2, hcsq, hcd⟩ := hnp (by omega)
      by_cases hceven : c % 2 = 0
      · exfalso
        have h2 : 2 ∣ x.toNat := (Nat.dvd_of_mod_eq_zero hceven).trans hcd
        omega
      · refine ⟨c, by omega, by omega, hcsq, ?_⟩
        have hc := Int.natCast_dvd_natCast.mpr hcd
        rwa [Int.toNat_of_nonneg (by omega : (0 : Int) ≤ x)] at hc
    · rintro ⟨a, ha3, haodd, hasq, had⟩
      cases hb : is_prime x with
      | false => rfl
      | true =>
        exfalso
        obtain ⟨hx2, hp⟩ := (is_prime_eq_true_iff x).mp hb
        have hadn : a ∣ x.toNat := by
          have : (a : Int) ∣ ((x.toNat : Nat) : Int) := by
            rw [Int.toNat_of_nonneg (by omega : (0 : Int) ≤ x)]
            exact had
          exact_mod_cast this
        rcases Nat.Prime.eq_one_or_self_of_dvd hp a hadn with h | h
        · omega
        · have := Nat.sqrt_lt_self (show 1 < x.toNat by omega)
          omega

theorem is_prime_correct_witness : is_prime 1 = false ∧ is_prime 10 = false :=
  ⟨is_prime_correct.1 1 (by norm_num), is_prime_correct.2.2.1 10 (by norm_num) (by decide)⟩

/-- C3: for every integer `n > 1`, every element of the list returned by
`prime_factors n`, every key of `prime_factors_dict n`, and every value
yielded by `prime_factors_i n` passes `is_prime`. -/
theorem prime_factors_all_prime (n : Int) (h : 1 < n) :
    ∃ l d, prime_factors n = some l ∧ prime_factors_dict n = some d ∧
      prime_factors_i n = some l ∧
      (∀ p ∈ l, is_prime (p : Int) = true) ∧
      (∀ p ∈ dictKeys d, is_prime (p : Int) = true) := by
  have hn0 : ¬ n < 0 := by omega
  obtain ⟨hprod, hprime, hsort⟩ := primeFactorsCore_spec n.toNat (by omega)
  have hisp : ∀ p ∈ primeFactorsAux (2 * n.toNat + 2) n.toNat 2,
      is_prime (p : Int) = true := by
    intro p hp
    have hp' := hprime p hp
    rw [is_prime_eq_true_iff]
    refine ⟨by exact_mod_cast hp'.two_le, ?_⟩
    rw [Int.toNat_natCast]
    exact hp'
  refine ⟨_, _, by rw [prime_factors, if_neg hn0],
    by rw [prime_factors_dict, if_neg hn0],
    by rw [prime_factors_i, if_neg hn0, primeFactorsIAux_eq], hisp, ?_⟩
  intro p hpk
  rw [primeFactorsDictAux_eq_foldl] at hpk
  rcases dictKeys_foldl _ [] p hpk with h' | h'
  · exact absurd h' (by simp [dictKeys])
  · exact hisp p h'

theorem prime_factors_all_prime_witness :
    ∃ l d, prime_factors 12 = some l ∧ prime_factors_dict 12 = some d ∧
      prime_factors_i 12 = some l ∧
      (∀ p ∈ l, is_prime (p : Int) = true) ∧
      (∀ p ∈ dictKeys d, is_prime (p : Int) = true) :=
  prime_factors_all_prime 12 (by norm_num)

/-- C4: for every integer `n ≥ 1` the three presentations agree: the
generator yields exactly the list `prime_factors` returns, and
`prime_factors_dict` maps each prime to its number of occurrences in that
list; for `n = 1` all three are empty, `prime_factors 12 = [2, 2, 3]`, and
`prime_factors_dict 360 = {2: 3, 3: 2, 5: 1}`. -/
theorem presentations_agree (n : Int) (h : 1 ≤ n) :
    prime_factors_i n = prime_factors n
    ∧ (∀ l d, prime_factors n = some l → prime_factors_dict n = some d →
        ∀ p, dictCount d p = l.count p)
    ∧ (prime_factors 1 = some [] ∧ prime_factors_dict 1 = some []
        ∧ prime_factors_i 1 = some [])
    ∧ prime_factors 12 = some [2, 2, 3]
    ∧ prime_factors_dict 360 = some [(2, 3), (3, 2), (5, 1)] := by
  refine ⟨prime_factors_i_eq n, ?_, ⟨by decide, by decide, by decide⟩,
    by decide, by decide⟩
  intro l d hl hd p
  have hn0 : ¬ n < 0 := by omega
  rw [prime_factors, if_neg hn0] at hl
  rw [prime_factors_dict, if_neg hn0] at hd
  obtain rfl := Option.some.inj hl
  obtain rfl := Option.some.inj hd
  rw [primeFactorsDictAux_eq_foldl, dictCount_foldl]
  simp [dictCount]

theorem presentations_agree_witness :
    prime_factors_i 4 = prime_factors 4
    ∧ (∀ l d, prime_factors 4 = some l → prime_factors_dict 4 = some d →
        ∀ p, dictCount d p = l.count p)
    ∧ (prime_factors 1 = some [] ∧ prime_factors_dict 1 = some []
        ∧ prime_factors_i 1 = some [])
    ∧ prime_factors 12 = some [2, 2, 3]
    ∧ prime_factors_dict 360 = some [(2, 3), (3, 2), (5, 1)] :=
  presentations_agree 4 (by norm_num)

/-- C5: for every integer `n > 1` the list returned by `prime_factors n` is
sorted in non-decreasing order, with repetition carrying multiplicity
(e.g. `prime_factors 12 = [2, 2, 3]`). -/
theorem prime_factors_sorted (n : Int) (h : 1 < n) :
    (∃ l, prime_factors n = some l ∧ List.Sorted (· ≤ ·) l)
      ∧ prime_factors 12 = some [2, 2, 3] := by
  have hn0 : ¬ n < 0 := by omega
  obtain ⟨_, _, hsort⟩ := primeFactorsCore_spec n.toNat (by omega)
  exact ⟨⟨_, by rw [prime_factors, if_neg hn0], hsort⟩, by decide⟩

theorem prime_factors_sorted_witness :
    (∃ l, prime_factors 30 = some l ∧ List.Sorted (· ≤ ·) l)
      ∧ prime_factors 12 = some [2, 2, 3] :=
  prime_factors_sorted 30 (by norm_num)

/-- C6: for every integer `n ≥ 2`, factorizing the product of
`prime ^ exponent` over the mapping `prime_factors_dict n` reproduces the
identical mapping. -/
theorem prime_factors_dict_round_trip (n : Int) (h : 2 ≤ n) :
    ∀ d, prime_factors_dict n = some d →
      prime_factors_dict (dictProd d : Int) = some d := by
  intro d hd
  have hn0 : ¬ n < 0 := by omega
  rw [prime_factors_dict, if_neg hn0] at hd
  obtain rfl := Option.some.inj hd
  have hprod : dictProd (primeFactorsDictAux (2 * n.toNat + 2) n.toNat 2 []) = n.toNat := by
    rw [primeFactorsDictAux_eq_foldl, dictProd_foldl]
    have hcore := (primeFactorsCore_spec n.toNat (by omega)).1
    have hnil : dictProd ([] : List (Nat × Nat)) = 1 := rfl
    rw [hnil, one_mul, hcore]
  rw [hprod]
  have hcast : ((n.toNat : Nat) : Int) = n := by omega
  rw [hcast, prime_factors_dict, if_neg hn0]

theorem prime_factors_dict_round_trip_witness :
    prime_factors_dict (dictProd [(2, 3), (3, 2), (5, 1)] : Int)
      = some [(2, 3), (3, 2), (5, 1)] :=
  prime_factors_dict_round_trip 360 (by norm_num) [(2, 3), (3, 2), (5, 1)] (by decide)

/-- C7: for every integer `n ≥ 1`, `totient n` counts the integers
`x ∈ [1, n]` with `gcd(x, n) = 1`; in particular `totient 1 = 1` and
`totient 9 = 6`. -/
theorem totient_correct (n : Int) (h : 1 ≤ n) :
    totient n = ((Finset.Icc (1 : Int) n).filter fun x => Int.gcd x n = 1).card
    ∧ totient 1 = 1 ∧ totient 9 = 6 := by
  refine ⟨?_, by decide, by decide⟩
  rw [totient, countP_range'_eq_card, Icc_int_eq_map n, Finset.filter_map,
    Finset.card_map]
  congr 1
  apply Finset.filter_congr
  intro m hm
  have hna : n.natAbs = n.toNat := by omega
  simp [Function.comp, Int.gcd, Int.natAbs_ofNat, hna]

theorem totient_correct_witness :
    totient 9 = ((Finset.Icc (1 : Int) 9).filter fun x => Int.gcd x 9 = 1).card
    ∧ totient 1 = 1 ∧ totient 9 = 6 :=
  totient_correct 9 (by norm_num)

/-- C8: `eqd` signals a domain error (raises, modelled as `none`) for every
`precision < 0`, and for every `precision ≥ 0` it completes and returns a
boolean. -/
theorem eqd_precision (a b delta precision : ℚ) :
    (precision < 0 → eqd a b delta precision = none)
    ∧ (0 ≤ precision → ∃ r, eqd a b delta precision = some r) := by
  constructor
  · intro h
    rw [eqd, if_pos h]
  · intro h
    rw [eqd, if_neg (not_lt.mpr h)]
    exact ⟨_, rfl⟩

theorem eqd_precision_witness :
    eqd 1 2 1 (-1) = none ∧ ∃ r, eqd 22 23 1 4 = some r :=
  ⟨(eqd_precision 1 2 1 (-1)).1 (by norm_num), (eqd_precision 22 23 1 4).2 (by norm_num)⟩

/-- C9 (counterexample): there are no `n ≥ 2` and factor `p` of `n` with
`is_prime (p + 7) = true` — any emitted factor `p` is prime, so `p + 7` is
either 9 or an even number larger than 2, and `is_prime` rejects both. -/
theorem factor_plus_seven_exists_false :
    ¬ ∃ (n : Int) (l : List Nat) (p : Nat),
        2 ≤ n ∧ prime_factors n = some l ∧ p ∈ l ∧ is_prime ((p : Int) + 7) = true := by
  rintro ⟨n, l, p, hn, hl, hp, htrue⟩
  rw [factor_plus_seven_aux n hn l hl p hp] at htrue
  exact Bool.false_ne_true htrue

/-- C9 (amended): for every integer `n ≥ 2` and every factor `p` the engine
produces for `n`, `is_prime (p + 7)` returns `false`. -/
theorem factor_plus_seven_false (n : Int) (hn : 2 ≤ n) :
    ∀ l, prime_factors n = some l → ∀ p ∈ l, is_prime ((p : Int) + 7) = false :=
  fun l hl p hp => factor_plus_seven_aux n hn l hl p hp

theorem factor_plus_seven_false_witness :
    is_prime (((2 : Nat) : Int) + 7) = false :=
  factor_plus_seven_false 12 (by norm_num) [2, 2, 3] (by decide) 2 (by decide)

/-- C10: `prime_factors 0`, `prime_factors_dict 0` and `prime_factors_i 0`
all terminate with an empty result, and every negative input makes each of
the three raise (`ValueError` from `sqrt`, modelled as `none`). -/
theorem factorization_edge_cases :
    (prime_factors 0 = some [] ∧ prime_factors_dict 0 = some []
      ∧ prime_factors_i 0 = some [])
    ∧ (∀ n : Int, n < 0 →
        prime_factors n = none ∧ prime_factors_dict n = none
          ∧ prime_factors_i n = none) := by
  refine ⟨⟨by decide, by decide, by decide⟩, ?_⟩
  intro n hn
  exact ⟨by rw [prime_factors, if_pos hn], by rw [prime_factors_dict, if_pos hn],
    by rw [prime_factors_i, if_pos hn]⟩

theorem factorization_edge_cases_witness :
    prime_factors (-5) = none ∧ prime_factors_dict (-5) = none
      ∧ prime_factors_i (-5) = none :=
  factorization_edge_cases.2 (-5) (by norm_num)

end MadMath
